import Mathlib

set_option linter.unusedVariables false

/-!
# Verification of `src/accident_and_emergency_sim.py`

Shallow embedding of the accident-and-emergency discrete-event simulation.
The script drives everything through the `simpy` runtime, so the embedding
models the `simpy` semantics the script relies on, exactly as they execute:

* `Environment.schedule` pushes `(due_time, priority, eid)` keyed entries onto
  a heap; `eid` is a strictly increasing counter assigned when the event is
  scheduled, and `priority` is `URGENT = 0` for process-initialization events
  (`env.process`) and the run-until event, `NORMAL = 1` for timeouts,
  request grants and releases.  The run loop repeatedly pops the least entry,
  sets `now` to its `due_time` and runs the popped continuation synchronously
  to its next suspension point.
* `Resource.request()` appends the request to the FIFO `put_queue` and then
  walks that queue from the head, granting (incrementing `users` and
  scheduling the waiter's resumption at the current time) while
  `users < capacity`; `Resource.release(req)` decrements `users` at the call
  and schedules a Release event whose firing walks the `put_queue` the same
  way.  A granted request resumes its process only when its grant event is
  popped, never synchronously inside `request`/`release`.

The two generator bodies of the script are compiled to explicit
continuations (`Action`): `Person.visit_a_and_e` is `initVisit` (draw the
inter-arrival delay and sleep) followed by `arrive` (spawn
`process_patient`), and `AccidentEmergencyDepartment.process_patient` is
`patientStart` (append to `waiting_room`, record the queue sample, request
the resource), `granted` (leave `waiting_room`, draw the service time and
sleep), and `serviceDone` (release the resource, respawn `visit_a_and_e`
via `patient.live_life()`, append the wait-time sample, terminate).

Random draws (`np.random.exponential`, `np.random.triangular`) are modelled
as two input streams `ia sv : ℕ → ℚ` consumed in execution order; patients
are identified by their creation index instead of the generated name string,
which the script uses only as an opaque label.  Times are rationals standing
for the real-valued simulated seconds.
-/

namespace AESim

/-- Suspended continuations of the script's two generator bodies, plus the
resource Release event and the `env.run(until=...)` stop event. -/
inductive Action : Type
  | initVisit (p : ℕ)
  | arrive (p : ℕ)
  | patientStart (p : ℕ)
  | granted (p : ℕ) (arr : ℚ)
  | serviceDone (p : ℕ) (arr : ℚ)
  | releaseEvt
  | stop
  deriving DecidableEq

/-- A scheduled entry of simpy's event heap: due time, priority
(0 = URGENT, 1 = NORMAL), scheduling sequence number, continuation. -/
structure Event : Type where
  due : ℚ
  prio : ℕ
  eid : ℕ
  act : Action
  deriving DecidableEq

/-- simpy's heap order: lexicographic on `(due_time, priority, eid)`. -/
def keyLe (a b : Event) : Prop :=
  a.due < b.due ∨
    (a.due = b.due ∧ (a.prio < b.prio ∨ (a.prio = b.prio ∧ a.eid ≤ b.eid)))

instance : DecidableRel keyLe := fun a b => by
  unfold keyLe; infer_instance

/-- Full state of one simulation run: clock, pending events, fresh event id,
the department's `simpy.Resource` (`users` count and FIFO `put_queue` of
pending requests recorded as (patient, arrival time)), the department's
`waiting_room` list, the two global sample containers
(`accident_and_emergency_queue_data` as (queue_length, admittance_time_days)
pairs and `patient_wait_time_data` as
(patient, admittance_time_days, wait_time_hrs) triples), the consumption
indices of the two random streams, and whether `env.run` has returned. -/
structure SimState : Type where
  now : ℚ
  queue : List Event
  nextEid : ℕ
  users : ℕ
  putQueue : List (ℕ × ℚ)
  waitingRoom : List ℕ
  queueData : List (ℕ × ℚ)
  waitData : List (ℕ × ℚ × ℚ)
  iaIdx : ℕ
  svIdx : ℕ
  stopped : Bool
  deriving DecidableEq

/-- `Environment.schedule(event, priority, delay)`: push with key
`(now + delay, priority, fresh eid)`.  The heap is kept as a list sorted by
`keyLe`, which pops entries in exactly the heap's order (keys are distinct
because eids are fresh). -/
def schedule (s : SimState) (delay : ℚ) (prio : ℕ) (act : Action) : SimState :=
  { s with
    queue := List.orderedInsert keyLe ⟨s.now + delay, prio, s.nextEid, act⟩ s.queue
    nextEid := s.nextEid + 1 }

/-- simpy `BaseResource._trigger_put`: walk the FIFO put queue from the head,
granting each request — append to `users` (here: increment the count) and
schedule the waiter's grant event at the current time — while
`users < capacity`.  Once the resource is full no later entry can be granted
(the count only grows inside the walk), so the walk stops there; the
remaining entries stay queued in order.  The `putQueue` field of the final
state is the unconsumed remainder of the walked list `pq`. -/
def grantFrom (cap : ℕ) : List (ℕ × ℚ) → SimState → SimState
  | [], s => { s with putQueue := [] }
  | (p, arr) :: rest, s =>
    if s.users < cap then
      grantFrom cap rest
        (schedule { s with users := s.users + 1 } 0 1 (.granted p arr))
    else
      { s with putQueue := (p, arr) :: rest }

/-- `Resource.request()` as executed at line 61: append the new request to
the FIFO put queue, then `_trigger_put` over the whole queue. -/
def requestCall (cap : ℕ) (p : ℕ) (arr : ℚ) (s : SimState) : SimState :=
  grantFrom cap (s.putQueue ++ [(p, arr)]) s

/-- Number of requests `_trigger_put` grants when walking `pq` starting from
`users` busy slots: the longest grantable head segment of the queue. -/
def grantCount (cap : ℕ) : List (ℕ × ℚ) → ℕ → ℕ
  | [], _ => 0
  | _ :: rest, users =>
    if users < cap then grantCount cap rest (users + 1) + 1 else 0

/-- Run one popped continuation synchronously to its next suspension point
or to termination, mirroring the source line by line:

* `initVisit p` — `visit_a_and_e` from its start: draw the inter-arrival
  delay (line 94) and suspend on `env.timeout` (line 95);
* `arrive p` — resumption at line 97: `env.process(... .process_patient)`
  spawns the service process (an URGENT initialization event at `now`), then
  the generator returns;
* `patientStart p` — `process_patient` lines 52-62: note the arrival time,
  append the patient to `waiting_room`, append the queue-length sample (the
  length *after* the append, time in days), then `request()` and suspend;
* `granted p arr` — resumption at line 64: remove the patient from
  `waiting_room` (first occurrence, as `list.remove`), draw the service
  duration (line 66) and suspend on `env.timeout`;
* `serviceDone p arr` — resumption at lines 68-77: `release` (decrement
  `users` and schedule the Release event), `patient.live_life()` (spawn a
  fresh `visit_a_and_e`, an URGENT initialization event), then append the
  wait-time sample `(patient, arrival/3600/24, (now - arrival)/3600)` and
  return;
* `releaseEvt` — the Release event popping: `_trigger_put` over the pending
  queue;
* `stop` — the `env.run(until=...)` event: the run returns. -/
def fire (cap : ℕ) (ia sv : ℕ → ℚ) (e : Event) (s : SimState) : SimState :=
  match e.act with
  | .initVisit p =>
      schedule { s with iaIdx := s.iaIdx + 1 } (ia s.iaIdx) 1 (.arrive p)
  | .arrive p =>
      schedule s 0 0 (.patientStart p)
  | .patientStart p =>
      let room := s.waitingRoom ++ [p]
      requestCall cap p s.now
        { s with
          waitingRoom := room
          queueData := s.queueData ++ [(room.length, s.now / 3600 / 24)] }
  | .granted p arr =>
      schedule
        { s with waitingRoom := s.waitingRoom.erase p, svIdx := s.svIdx + 1 }
        (sv s.svIdx) 1 (.serviceDone p arr)
  | .serviceDone p arr =>
      let s1 := schedule { s with users := s.users - 1 } 0 1 .releaseEvt
      let s2 := schedule s1 0 0 (.initVisit p)
      { s2 with
        waitData := s2.waitData ++ [(p, arr / 3600 / 24, (s.now - arr) / 3600)] }
  | .releaseEvt =>
      grantFrom cap s.putQueue s
  | .stop =>
      { s with stopped := true }

/-- One iteration of simpy's run loop: pop the least-keyed event, advance the
clock to its due time, and run its continuation.  After the stop event has
fired (or the heap has drained) the run has returned and nothing moves. -/
def step (cap : ℕ) (ia sv : ℕ → ℚ) (s : SimState) : SimState :=
  if s.stopped then s
  else
    match s.queue with
    | [] => s
    | e :: rest => fire cap ia sv e { s with now := e.due, queue := rest }

/-- The fresh `simpy.Environment()` of line 102. -/
def emptyState : SimState :=
  ⟨0, [], 0, 0, [], [], [], [], 0, 0, false⟩

/-- Lines 110-117 before any event fires: each `Person(env, ...)` calls
`live_life`, i.e. `env.process(visit_a_and_e)`, scheduling one URGENT
initialization event at time 0 per person (eids 0..numPersons-1); then
`env.run(until=horizon)` schedules its URGENT stop event at the horizon. -/
def setup (numPersons : ℕ) (horizon : ℚ) : SimState :=
  schedule
    ((List.range numPersons).foldl
      (fun s i => schedule s 0 0 (.initVisit i)) emptyState)
    horizon 0 .stop

/-- The state after `n` iterations of the run loop. -/
def runFor (cap numPersons : ℕ) (horizon : ℚ) (ia sv : ℕ → ℚ) : ℕ → SimState
  | 0 => setup numPersons horizon
  | n + 1 => step cap ia sv (runFor cap numPersons horizon ia sv n)

/-- Does this continuation belong to the (unique) live visit cycle of
patient `p`?  Used to count how many process tokens person `p` owns. -/
def Action.tokenOf : Action → Option ℕ
  | .initVisit p => some p
  | .arrive p => some p
  | .patientStart p => some p
  | .granted p _ => some p
  | .serviceDone p _ => some p
  | .releaseEvt => none
  | .stop => none

/-- Is this a grant (resume-after-request) event for patient `p`? -/
def Action.grantsTo (p : ℕ) : Action → Bool
  | .granted q _ => q == p
  | _ => false

/-- Is this a grant event (for anyone)? -/
def Action.isGranted : Action → Bool
  | .granted _ _ => true
  | _ => false

/-- Is this a service-completion timeout event? -/
def Action.isServiceDone : Action → Bool
  | .serviceDone _ _ => true
  | _ => false

/-- How many scheduled continuations (or pending requests) person `p` owns. -/
def tokenCount (p : ℕ) (s : SimState) : ℕ :=
  s.queue.countP (fun e => e.act.tokenOf == some p)
    + s.putQueue.countP (fun q => q.1 == p)

/-- Number of service processes past their arrival sample but before their
completion sample: waiters pending in the put queue, grant events scheduled,
and services in progress. -/
def inFlight (s : SimState) : ℕ :=
  s.queue.countP (fun e => e.act.isGranted)
    + s.queue.countP (fun e => e.act.isServiceDone)
    + s.putQueue.length

/-- `AccidentEmergencyDepartment.__init__` (lines 40-43) constructs
`simpy.Resource(env=env, capacity=capacity)`; simpy's `Resource` constructor
raises `ValueError` when `capacity <= 0`, so department construction fails
fast for a non-positive capacity and yields the usable slot count
otherwise. -/
def mkDepartment (capacity : ℤ) : Except String ℕ :=
  if capacity ≤ 0 then .error "capacity must be > 0"
  else .ok capacity.toNat

/-- The whole script: construct the department, and only on success build
the population and enter the run loop.  A construction error propagates
without a single event being processed. -/
def runProgram (capacity : ℤ) (numPersons : ℕ) (horizon : ℚ)
    (ia sv : ℕ → ℚ) (fuel : ℕ) : Except String SimState :=
  (mkDepartment capacity).map (fun cap => runFor cap numPersons horizon ia sv fuel)

/-! ## Evaluation of the action observables on each continuation -/

@[simp] theorem tokenOf_initVisit (p : ℕ) : (Action.initVisit p).tokenOf = some p := rfl

@[simp] theorem tokenOf_arrive (p : ℕ) : (Action.arrive p).tokenOf = some p := rfl

@[simp] theorem tokenOf_patientStart (p : ℕ) : (Action.patientStart p).tokenOf = some p := rfl

@[simp] theorem tokenOf_granted (p : ℕ) (arr : ℚ) : (Action.granted p arr).tokenOf = some p := rfl

@[simp] theorem tokenOf_serviceDone (p : ℕ) (arr : ℚ) : (Action.serviceDone p arr).tokenOf = some p := rfl

@[simp] theorem tokenOf_releaseEvt : Action.releaseEvt.tokenOf = none := rfl

@[simp] theorem tokenOf_stop : Action.stop.tokenOf = none := rfl

@[simp] theorem grantsTo_initVisit (p q : ℕ) : Action.grantsTo p (.initVisit q) = false := rfl

@[simp] theorem grantsTo_arrive (p q : ℕ) : Action.grantsTo p (.arrive q) = false := rfl

@[simp] theorem grantsTo_patientStart (p q : ℕ) : Action.grantsTo p (.patientStart q) = false := rfl

@[simp] theorem grantsTo_granted (p q : ℕ) (arr : ℚ) : Action.grantsTo p (.granted q arr) = (q == p) := rfl

@[simp] theorem grantsTo_serviceDone (p q : ℕ) (arr : ℚ) : Action.grantsTo p (.serviceDone q arr) = false := rfl

@[simp] theorem grantsTo_releaseEvt (p : ℕ) : Action.grantsTo p .releaseEvt = false := rfl

@[simp] theorem grantsTo_stop (p : ℕ) : Action.grantsTo p .stop = false := rfl

@[simp] theorem isGranted_initVisit (q : ℕ) : (Action.initVisit q).isGranted = false := rfl

@[simp] theorem isGranted_arrive (q : ℕ) : (Action.arrive q).isGranted = false := rfl

@[simp] theorem isGranted_patientStart (q : ℕ) : (Action.patientStart q).isGranted = false := rfl

@[simp] theorem isGranted_granted (q : ℕ) (arr : ℚ) : (Action.granted q arr).isGranted = true := rfl

@[simp] theorem isGranted_serviceDone (q : ℕ) (arr : ℚ) : (Action.serviceDone q arr).isGranted = false := rfl

@[simp] theorem isGranted_releaseEvt : Action.releaseEvt.isGranted = false := rfl

@[simp] theorem isGranted_stop : Action.stop.isGranted = false := rfl

@[simp] theorem isServiceDone_initVisit (q : ℕ) : (Action.initVisit q).isServiceDone = false := rfl

@[simp] theorem isServiceDone_arrive (q : ℕ) : (Action.arrive q).isServiceDone = false := rfl

@[simp] theorem isServiceDone_patientStart (q : ℕ) : (Action.patientStart q).isServiceDone = false := rfl

@[simp] theorem isServiceDone_granted (q : ℕ) (arr : ℚ) : (Action.granted q arr).isServiceDone = false := rfl

@[simp] theorem isServiceDone_serviceDone (q : ℕ) (arr : ℚ) : (Action.serviceDone q arr).isServiceDone = true := rfl

@[simp] theorem isServiceDone_releaseEvt : Action.releaseEvt.isServiceDone = false := rfl

@[simp] theorem isServiceDone_stop : Action.stop.isServiceDone = false := rfl

/-! ## Order facts about the heap key -/

theorem keyLe_due {a b : Event} (h : keyLe a b) : a.due ≤ b.due := by
  rcases h with h | ⟨h, _⟩
  · exact le_of_lt h
  · exact le_of_eq h

instance : IsTotal Event keyLe := ⟨by
  intro a b
  rcases lt_trichotomy a.due b.due with h | h | h
  · exact Or.inl (Or.inl h)
  · rcases lt_trichotomy a.prio b.prio with h2 | h2 | h2
    · exact Or.inl (Or.inr ⟨h, Or.inl h2⟩)
    · rcases Nat.le_total a.eid b.eid with h3 | h3
      · exact Or.inl (Or.inr ⟨h, Or.inr ⟨h2, h3⟩⟩)
      · exact Or.inr (Or.inr ⟨h.symm, Or.inr ⟨h2.symm, h3⟩⟩)
    · exact Or.inr (Or.inr ⟨h.symm, Or.inl h2⟩)
  · exact Or.inr (Or.inl h)⟩

instance : IsTrans Event keyLe := ⟨by
  intro a b c hab hbc
  rcases hab with h1 | ⟨e1, h1⟩
  · rcases hbc with h2 | ⟨e2, h2⟩
    · exact Or.inl (h1.trans h2)
    · exact Or.inl (lt_of_lt_of_le h1 (le_of_eq e2))
  · rcases hbc with h2 | ⟨e2, h2⟩
    · exact Or.inl (lt_of_le_of_lt (le_of_eq e1) h2)
    · refine Or.inr ⟨e1.trans e2, ?_⟩
      rcases h1 with h1 | ⟨p1, h1⟩
      · rcases h2 with h2 | ⟨p2, h2⟩
        · exact Or.inl (h1.trans h2)
        · exact Or.inl (lt_of_lt_of_le h1 (le_of_eq p2))
      · rcases h2 with h2 | ⟨p2, h2⟩
        · exact Or.inl (lt_of_le_of_lt (le_of_eq p1) h2)
        · exact Or.inr ⟨p1.trans p2, h1.trans h2⟩⟩

/-! ## Basic lemmas about `schedule` -/

theorem schedule_now (s : SimState) (d : ℚ) (pr : ℕ) (a : Action) :
    (schedule s d pr a).now = s.now := rfl

theorem schedule_users (s : SimState) (d : ℚ) (pr : ℕ) (a : Action) :
    (schedule s d pr a).users = s.users := rfl

theorem schedule_putQueue (s : SimState) (d : ℚ) (pr : ℕ) (a : Action) :
    (schedule s d pr a).putQueue = s.putQueue := rfl

theorem schedule_nextEid (s : SimState) (d : ℚ) (pr : ℕ) (a : Action) :
    (schedule s d pr a).nextEid = s.nextEid + 1 := rfl

theorem schedule_mem (s : SimState) (d : ℚ) (pr : ℕ) (a : Action) (x : Event) :
    x ∈ (schedule s d pr a).queue ↔
      x = ⟨s.now + d, pr, s.nextEid, a⟩ ∨ x ∈ s.queue :=
  List.mem_orderedInsert keyLe

theorem schedule_countP (s : SimState) (d : ℚ) (pr : ℕ) (a : Action)
    (f : Event → Bool) :
    (schedule s d pr a).queue.countP f
      = s.queue.countP f + (if f ⟨s.now + d, pr, s.nextEid, a⟩ then 1 else 0) := by
  unfold schedule
  rw [(List.perm_orderedInsert keyLe _ _).countP_eq, List.countP_cons]

theorem schedule_sorted (s : SimState) (d : ℚ) (pr : ℕ) (a : Action)
    (h : s.queue.Sorted keyLe) : (schedule s d pr a).queue.Sorted keyLe :=
  List.Sorted.orderedInsert _ _ h

/-! ## Lemmas about `grantFrom` (simpy `_trigger_put`) -/

theorem grantFrom_frame (cap : ℕ) :
    ∀ (pq : List (ℕ × ℚ)) (s : SimState),
      (grantFrom cap pq s).now = s.now ∧
      (grantFrom cap pq s).waitingRoom = s.waitingRoom ∧
      (grantFrom cap pq s).queueData = s.queueData ∧
      (grantFrom cap pq s).waitData = s.waitData ∧
      (grantFrom cap pq s).iaIdx = s.iaIdx ∧
      (grantFrom cap pq s).svIdx = s.svIdx ∧
      (grantFrom cap pq s).stopped = s.stopped
  | [], s => by simp [grantFrom]
  | (p, arr) :: rest, s => by
    by_cases hlt : s.users < cap
    · simpa [grantFrom, hlt, schedule] using grantFrom_frame cap rest _
    · simp [grantFrom, hlt]

theorem grantFrom_users_le (cap : ℕ) :
    ∀ (pq : List (ℕ × ℚ)) (s : SimState),
      s.users ≤ cap → (grantFrom cap pq s).users ≤ cap
  | [], s, h => h
  | (p, arr) :: rest, s, h => by
    by_cases hlt : s.users < cap
    · simp only [grantFrom, if_pos hlt]
      exact grantFrom_users_le cap rest _ hlt
    · simpa [grantFrom, hlt] using h

theorem grantFrom_putQueue (cap : ℕ) :
    ∀ (pq : List (ℕ × ℚ)) (s : SimState),
      (grantFrom cap pq s).putQueue = pq.drop (grantCount cap pq s.users)
  | [], s => by simp [grantFrom, grantCount]
  | (p, arr) :: rest, s => by
    by_cases hlt : s.users < cap
    · simp only [grantFrom, grantCount, if_pos hlt]
      rw [grantFrom_putQueue cap rest]
      simp [schedule]
    · simp [grantFrom, grantCount, hlt]

theorem grantFrom_nextEid (cap : ℕ) :
    ∀ (pq : List (ℕ × ℚ)) (s : SimState),
      (grantFrom cap pq s).nextEid = s.nextEid + grantCount cap pq s.users
  | [], s => by simp [grantFrom, grantCount]
  | (p, arr) :: rest, s => by
    by_cases hlt : s.users < cap
    · simp only [grantFrom, grantCount, if_pos hlt]
      rw [grantFrom_nextEid cap rest]
      simp [schedule]
      omega
    · simp [grantFrom, grantCount, hlt]

theorem grantFrom_putQueue_nil (cap : ℕ) :
    ∀ (pq : List (ℕ × ℚ)) (s : SimState),
      (grantFrom cap pq s).putQueue = [] → pq ≠ [] → s.users < cap
  | [], s, _, hne => absurd rfl hne
  | (p, arr) :: rest, s, h, _ => by
    by_cases hlt : s.users < cap
    · exact hlt
    · simp [grantFrom, hlt] at h

theorem grantFrom_mem (cap : ℕ) :
    ∀ (pq : List (ℕ × ℚ)) (s : SimState) (x : Event),
      x ∈ s.queue → x ∈ (grantFrom cap pq s).queue
  | [], s, x, hx => hx
  | (p, arr) :: rest, s, x, hx => by
    by_cases hlt : s.users < cap
    · simp only [grantFrom, if_pos hlt]
      exact grantFrom_mem cap rest _ x ((schedule_mem _ _ _ _ x).mpr (Or.inr hx))
    · simpa [grantFrom, hlt] using hx

theorem grantFrom_mem_new (cap : ℕ) :
    ∀ (pq : List (ℕ × ℚ)) (s : SimState) (i : ℕ) (pa : ℕ × ℚ),
      i < grantCount cap pq s.users → pq.get? i = some pa →
      (⟨s.now, 1, s.nextEid + i, .granted pa.1 pa.2⟩ : Event)
        ∈ (grantFrom cap pq s).queue
  | [], s, i, pa, hi, _ => by simp [grantCount] at hi
  | (p, arr) :: rest, s, i, pa, hi, hg => by
    by_cases hlt : s.users < cap
    · simp only [grantFrom, if_pos hlt]
      cases i with
      | zero =>
        have hpa : pa = (p, arr) := by
          have h0 : (p, arr) = pa := by simpa using hg
          exact h0.symm
        subst hpa
        apply grantFrom_mem
        rw [schedule_mem]
        left
        simp
      | succ j =>
        have hj : j < grantCount cap rest (s.users + 1) := by
          simp only [grantCount, if_pos hlt] at hi
          omega
        have hg' : rest.get? j = some pa := by simpa using hg
        have := grantFrom_mem_new cap rest
          (schedule { s with users := s.users + 1 } 0 1 (.granted p arr)) j pa
          (by simpa [schedule] using hj) hg'
        simpa [schedule_now, schedule_nextEid, Nat.add_assoc, Nat.add_comm 1 j]
          using this
    · simp [grantCount, hlt] at hi

theorem grantFrom_countP (cap : ℕ) (f : Event → Bool) (g : (ℕ × ℚ) → Bool)
    (hfg : ∀ (d : ℚ) (pr n p : ℕ) (arr : ℚ),
      f ⟨d, pr, n, .granted p arr⟩ = g (p, arr)) :
    ∀ (pq : List (ℕ × ℚ)) (s : SimState),
      (grantFrom cap pq s).queue.countP f + (grantFrom cap pq s).putQueue.countP g
        = s.queue.countP f + pq.countP g
  | [], s => by simp [grantFrom]
  | (p, arr) :: rest, s => by
    by_cases hlt : s.users < cap
    · simp only [grantFrom, if_pos hlt]
      rw [grantFrom_countP cap f g hfg rest]
      rw [schedule_countP, hfg, List.countP_cons]
      by_cases hg : g (p, arr) <;> simp [hg] <;> try omega
    · simp [grantFrom, hlt]

theorem grantFrom_sorted (cap : ℕ) :
    ∀ (pq : List (ℕ × ℚ)) (s : SimState),
      s.queue.Sorted keyLe → (grantFrom cap pq s).queue.Sorted keyLe
  | [], s, h => h
  | (p, arr) :: rest, s, h => by
    by_cases hlt : s.users < cap
    · simp only [grantFrom, if_pos hlt]
      exact grantFrom_sorted cap rest _ (schedule_sorted _ _ _ _ h)
    · simpa [grantFrom, hlt] using h

theorem grantFrom_queue_src (cap : ℕ) :
    ∀ (pq : List (ℕ × ℚ)) (s : SimState) (x : Event),
      x ∈ (grantFrom cap pq s).queue →
      x ∈ s.queue ∨
        (x.due = s.now ∧ x.prio = 1 ∧ ∃ pa ∈ pq, x.act = .granted pa.1 pa.2)
  | [], s, x, hx => Or.inl hx
  | (p, arr) :: rest, s, x, hx => by
    by_cases hlt : s.users < cap
    · simp only [grantFrom, if_pos hlt] at hx
      rcases grantFrom_queue_src cap rest _ x hx with h | ⟨hd, hp, pa, hpa, hact⟩
      · rcases (schedule_mem _ _ _ _ x).mp h with h | h
        · subst h
          refine Or.inr ⟨by simp [schedule], rfl, (p, arr), by simp, rfl⟩
        · exact Or.inl h
      · exact Or.inr ⟨by simpa [schedule] using hd, hp, pa, by simp [hpa], hact⟩
    · simp only [grantFrom, if_neg hlt] at hx
      exact Or.inl hx

/-! ## Setup lemmas -/

theorem countP_ext {α : Type} (l : List α) {f g : α → Bool} (h : ∀ a, f a = g a) :
    l.countP f = l.countP g := by
  have hfg : f = g := funext h
  rw [hfg]

theorem foldl_initVisit_frame (l : List ℕ) :
    ∀ s : SimState,
      (l.foldl (fun s i => schedule s 0 0 (.initVisit i)) s).now = s.now ∧
      (l.foldl (fun s i => schedule s 0 0 (.initVisit i)) s).users = s.users ∧
      (l.foldl (fun s i => schedule s 0 0 (.initVisit i)) s).putQueue = s.putQueue ∧
      (l.foldl (fun s i => schedule s 0 0 (.initVisit i)) s).waitingRoom = s.waitingRoom ∧
      (l.foldl (fun s i => schedule s 0 0 (.initVisit i)) s).queueData = s.queueData ∧
      (l.foldl (fun s i => schedule s 0 0 (.initVisit i)) s).waitData = s.waitData ∧
      (l.foldl (fun s i => schedule s 0 0 (.initVisit i)) s).stopped = s.stopped := by
  induction l with
  | nil => intro s; exact ⟨rfl, rfl, rfl, rfl, rfl, rfl, rfl⟩
  | cons i l ih => intro s; simpa [schedule] using ih (schedule s 0 0 (.initVisit i))

theorem foldl_initVisit_countP (f : Event → Bool) (g : Action → Bool)
    (hf : ∀ (d : ℚ) (pr n : ℕ) (a : Action), f ⟨d, pr, n, a⟩ = g a)
    (l : List ℕ) :
    ∀ s : SimState,
      (l.foldl (fun s i => schedule s 0 0 (.initVisit i)) s).queue.countP f
        = s.queue.countP f + l.countP (fun i => g (.initVisit i)) := by
  induction l with
  | nil => intro s; simp
  | cons i l ih =>
    intro s
    rw [List.foldl_cons, ih, schedule_countP, hf, List.countP_cons]
    by_cases hg : g (.initVisit i) <;> simp [hg] <;> try omega

theorem foldl_initVisit_sorted (l : List ℕ) :
    ∀ s : SimState, s.queue.Sorted keyLe →
      (l.foldl (fun s i => schedule s 0 0 (.initVisit i)) s).queue.Sorted keyLe := by
  induction l with
  | nil => intro s h; exact h
  | cons i l ih => intro s h; exact ih _ (schedule_sorted _ _ _ _ h)

theorem setup_frame (numPersons : ℕ) (horizon : ℚ) :
    (setup numPersons horizon).now = 0 ∧
    (setup numPersons horizon).users = 0 ∧
    (setup numPersons horizon).putQueue = [] ∧
    (setup numPersons horizon).waitingRoom = [] ∧
    (setup numPersons horizon).queueData = [] ∧
    (setup numPersons horizon).waitData = [] ∧
    (setup numPersons horizon).stopped = false := by
  have h := foldl_initVisit_frame (List.range numPersons) emptyState
  unfold setup
  simpa [schedule, emptyState] using h

theorem setup_countP (numPersons : ℕ) (horizon : ℚ)
    (f : Event → Bool) (g : Action → Bool)
    (hf : ∀ (d : ℚ) (pr n : ℕ) (a : Action), f ⟨d, pr, n, a⟩ = g a) :
    (setup numPersons horizon).queue.countP f
      = (List.range numPersons).countP (fun i => g (.initVisit i))
        + (if g .stop then 1 else 0) := by
  unfold setup
  rw [schedule_countP, hf, foldl_initVisit_countP f g hf]
  simp [emptyState]

theorem setup_sorted (numPersons : ℕ) (horizon : ℚ) :
    (setup numPersons horizon).queue.Sorted keyLe := by
  unfold setup
  exact schedule_sorted _ _ _ _
    (foldl_initVisit_sorted _ emptyState (by simp [emptyState]))


/-! ## Unfolding the run loop one case at a time -/

theorem schedule_waitingRoom (s : SimState) (d : ℚ) (pr : ℕ) (a : Action) :
    (schedule s d pr a).waitingRoom = s.waitingRoom := rfl

theorem schedule_queueData (s : SimState) (d : ℚ) (pr : ℕ) (a : Action) :
    (schedule s d pr a).queueData = s.queueData := rfl

theorem schedule_waitData (s : SimState) (d : ℚ) (pr : ℕ) (a : Action) :
    (schedule s d pr a).waitData = s.waitData := rfl

theorem step_of_stopped (cap : ℕ) (ia sv : ℕ → ℚ) {s : SimState}
    (hs : s.stopped = true) : step cap ia sv s = s := by
  unfold step
  rw [if_pos hs]

theorem step_of_nil (cap : ℕ) (ia sv : ℕ → ℚ) {s : SimState}
    (hq : s.queue = []) : step cap ia sv s = s := by
  unfold step
  by_cases hs : s.stopped = true
  · rw [if_pos hs]
  · rw [if_neg hs, hq]

theorem step_eq (cap : ℕ) (ia sv : ℕ → ℚ) {s : SimState} {e : Event}
    {rest : List Event} (hs : ¬s.stopped = true) (hq : s.queue = e :: rest) :
    step cap ia sv s = fire cap ia sv e { s with now := e.due, queue := rest } := by
  unfold step
  rw [if_neg hs, hq]

theorem fire_initVisit (cap : ℕ) (ia sv : ℕ → ℚ) (d : ℚ) (pr n q : ℕ)
    (s : SimState) :
    fire cap ia sv ⟨d, pr, n, .initVisit q⟩ s
      = schedule { s with iaIdx := s.iaIdx + 1 } (ia s.iaIdx) 1 (.arrive q) := rfl

theorem fire_arrive (cap : ℕ) (ia sv : ℕ → ℚ) (d : ℚ) (pr n q : ℕ)
    (s : SimState) :
    fire cap ia sv ⟨d, pr, n, .arrive q⟩ s
      = schedule s 0 0 (.patientStart q) := rfl

theorem fire_patientStart (cap : ℕ) (ia sv : ℕ → ℚ) (d : ℚ) (pr n q : ℕ)
    (s : SimState) :
    fire cap ia sv ⟨d, pr, n, .patientStart q⟩ s
      = requestCall cap q s.now
          { s with
            waitingRoom := s.waitingRoom ++ [q]
            queueData := s.queueData
              ++ [((s.waitingRoom ++ [q]).length, s.now / 3600 / 24)] } := rfl

theorem fire_granted (cap : ℕ) (ia sv : ℕ → ℚ) (d : ℚ) (pr n q : ℕ) (arr : ℚ)
    (s : SimState) :
    fire cap ia sv ⟨d, pr, n, .granted q arr⟩ s
      = schedule
          { s with waitingRoom := s.waitingRoom.erase q, svIdx := s.svIdx + 1 }
          (sv s.svIdx) 1 (.serviceDone q arr) := rfl

theorem fire_serviceDone (cap : ℕ) (ia sv : ℕ → ℚ) (d : ℚ) (pr n q : ℕ)
    (arr : ℚ) (s : SimState) :
    fire cap ia sv ⟨d, pr, n, .serviceDone q arr⟩ s
      = { schedule
            (schedule { s with users := s.users - 1 } 0 1 .releaseEvt)
            0 0 (.initVisit q) with
          waitData := s.waitData ++ [(q, arr / 3600 / 24, (s.now - arr) / 3600)] } := rfl

theorem fire_releaseEvt (cap : ℕ) (ia sv : ℕ → ℚ) (d : ℚ) (pr n : ℕ)
    (s : SimState) :
    fire cap ia sv ⟨d, pr, n, .releaseEvt⟩ s = grantFrom cap s.putQueue s := rfl

theorem fire_stop (cap : ℕ) (ia sv : ℕ → ℚ) (d : ℚ) (pr n : ℕ) (s : SimState) :
    fire cap ia sv ⟨d, pr, n, .stop⟩ s = { s with stopped := true } := rfl

/-! ## Per-person process-token conservation

Each person owns, at every machine state, a fixed number of live
continuations/pending requests: a run-loop iteration consumes exactly the
popped continuation and produces exactly one for the same person (or moves a
pending request to its grant event), so the count never changes. -/

theorem tokenCount_set_waitData (p : ℕ) (s : SimState) (w : List (ℕ × ℚ × ℚ)) :
    tokenCount p { s with waitData := w } = tokenCount p s := rfl

theorem tokenCount_schedule (p : ℕ) (s : SimState) (d : ℚ) (pr : ℕ)
    (a : Action) :
    tokenCount p (schedule s d pr a)
      = tokenCount p s + (if a.tokenOf == some p then 1 else 0) := by
  unfold tokenCount
  rw [schedule_countP, schedule_putQueue]
  by_cases h : a.tokenOf == some p <;> simp [h] <;> try omega

theorem tokenCount_grantFrom (cap p : ℕ) (pq : List (ℕ × ℚ)) (s : SimState) :
    tokenCount p (grantFrom cap pq s)
      = s.queue.countP (fun e => e.act.tokenOf == some p)
        + pq.countP (fun q => q.1 == p) :=
  grantFrom_countP cap _ _ (fun d pr n q arr => rfl) pq s

theorem tokenCount_fire (cap : ℕ) (ia sv : ℕ → ℚ) (d : ℚ) (pr n : ℕ)
    (a : Action) (p : ℕ) (s : SimState) :
    tokenCount p (fire cap ia sv ⟨d, pr, n, a⟩ s)
      = tokenCount p s + (if a.tokenOf == some p then 1 else 0) := by
  cases a with
  | initVisit q =>
    rw [fire_initVisit, tokenCount_schedule]
    rfl
  | arrive q =>
    rw [fire_arrive, tokenCount_schedule]
    rfl
  | patientStart q =>
    rw [fire_patientStart, requestCall, tokenCount_grantFrom, List.countP_append]
    simp [tokenCount, Action.tokenOf, List.countP_cons]
    omega
  | granted q arr =>
    rw [fire_granted, tokenCount_schedule]
    rfl
  | serviceDone q arr =>
    rw [fire_serviceDone, tokenCount_set_waitData, tokenCount_schedule,
      tokenCount_schedule]
    have husers : tokenCount p { s with users := s.users - 1 } = tokenCount p s := rfl
    rw [husers]
    simp [Action.tokenOf]
  | releaseEvt =>
    rw [fire_releaseEvt, tokenCount_grantFrom]
    simp [tokenCount, Action.tokenOf]
  | stop =>
    simp [fire_stop, tokenCount, Action.tokenOf]

theorem tokenCount_step (cap : ℕ) (ia sv : ℕ → ℚ) (p : ℕ) (s : SimState) :
    tokenCount p (step cap ia sv s) = tokenCount p s := by
  by_cases hs : s.stopped = true
  · rw [step_of_stopped cap ia sv hs]
  · rcases hq : s.queue with _ | ⟨e, rest⟩
    · rw [step_of_nil cap ia sv hq]
    · obtain ⟨d, pr, n, a⟩ := e
      rw [step_eq cap ia sv hs hq, tokenCount_fire]
      have hst : tokenCount p
          { s with now := (⟨d, pr, n, a⟩ : Event).due, queue := rest }
          = rest.countP (fun e => e.act.tokenOf == some p)
            + s.putQueue.countP (fun q => q.1 == p) := rfl
      rw [hst]
      unfold tokenCount
      rw [hq, List.countP_cons]
      by_cases h : a.tokenOf == some p <;> simp [h] <;> try omega

theorem tokenCount_setup (numPersons : ℕ) (horizon : ℚ) (p : ℕ) :
    tokenCount p (setup numPersons horizon)
      = if p < numPersons then 1 else 0 := by
  unfold tokenCount
  rw [setup_countP numPersons horizon _ (fun a => a.tokenOf == some p)
    (fun d pr n a => rfl)]
  rw [(setup_frame numPersons horizon).2.2.1]
  have hc : (List.range numPersons).countP
      (fun i => (Action.initVisit i).tokenOf == some p)
        = (List.range numPersons).count p :=
    countP_ext _ (fun a => rfl)
  rw [hc]
  by_cases hp : p < numPersons
  · rw [List.count_eq_one_of_mem (List.nodup_range _) (List.mem_range.mpr hp)]
    simp [Action.tokenOf, hp]
  · rw [List.count_eq_zero_of_not_mem (by simpa using hp)]
    simp [Action.tokenOf, hp]

theorem tokenCount_runFor (cap numPersons : ℕ) (horizon : ℚ) (ia sv : ℕ → ℚ)
    (n p : ℕ) :
    tokenCount p (runFor cap numPersons horizon ia sv n)
      = if p < numPersons then 1 else 0 := by
  induction n with
  | zero => exact tokenCount_setup numPersons horizon p
  | succ n ih => rw [runFor, tokenCount_step, ih]

/-! ## Record-update projections -/

theorem waitingRoom_set_waitData (s : SimState) (w : List (ℕ × ℚ × ℚ)) :
    ({ s with waitData := w } : SimState).waitingRoom = s.waitingRoom := rfl

theorem putQueue_set_waitData (s : SimState) (w : List (ℕ × ℚ × ℚ)) :
    ({ s with waitData := w } : SimState).putQueue = s.putQueue := rfl

theorem queue_set_waitData (s : SimState) (w : List (ℕ × ℚ × ℚ)) :
    ({ s with waitData := w } : SimState).queue = s.queue := rfl

theorem queueData_set_waitData (s : SimState) (w : List (ℕ × ℚ × ℚ)) :
    ({ s with waitData := w } : SimState).queueData = s.queueData := rfl

theorem waitData_set_waitData (s : SimState) (w : List (ℕ × ℚ × ℚ)) :
    ({ s with waitData := w } : SimState).waitData = w := rfl

theorem users_set_waitData (s : SimState) (w : List (ℕ × ℚ × ℚ)) :
    ({ s with waitData := w } : SimState).users = s.users := rfl

/-! ## Waiting-room balance

`waiting_room` holds patient `p` exactly as many times as there are grant
events scheduled for `p` plus pending requests of `p` in the resource's put
queue: a patient enters the room at arrival (line 54) and leaves it when its
process resumes after the request was granted (line 64). -/

def roomBal (p : ℕ) (s : SimState) : Prop :=
  s.waitingRoom.count p
    = s.queue.countP (fun e => Action.grantsTo p e.act)
      + s.putQueue.countP (fun q => q.1 == p)

theorem grCount_schedule (p : ℕ) (s : SimState) (d : ℚ) (pr : ℕ) (a : Action) :
    (schedule s d pr a).queue.countP (fun e => Action.grantsTo p e.act)
      = s.queue.countP (fun e => Action.grantsTo p e.act)
        + (if Action.grantsTo p a then 1 else 0) := by
  rw [schedule_countP]

theorem grCount_grantFrom (cap p : ℕ) (pq : List (ℕ × ℚ)) (s : SimState) :
    (grantFrom cap pq s).queue.countP (fun e => Action.grantsTo p e.act)
        + (grantFrom cap pq s).putQueue.countP (fun q => q.1 == p)
      = s.queue.countP (fun e => Action.grantsTo p e.act)
        + pq.countP (fun q => q.1 == p) :=
  grantFrom_countP cap _ _ (fun d pr n q arr => rfl) pq s

theorem roomBal_step (cap : ℕ) (ia sv : ℕ → ℚ) (p : ℕ) (s : SimState)
    (h : roomBal p s) : roomBal p (step cap ia sv s) := by
  by_cases hs : s.stopped = true
  · rwa [step_of_stopped cap ia sv hs]
  · rcases hq : s.queue with _ | ⟨e, rest⟩
    · rwa [step_of_nil cap ia sv hq]
    · obtain ⟨d, pr, n, a⟩ := e
      rw [step_eq cap ia sv hs hq]
      unfold roomBal at h ⊢
      rw [hq, List.countP_cons] at h
      cases a with
      | initVisit q =>
        rw [fire_initVisit, grCount_schedule, schedule_waitingRoom,
          schedule_putQueue]
        simp only [Action.grantsTo] at h ⊢
        simpa using h
      | arrive q =>
        rw [fire_arrive, grCount_schedule, schedule_waitingRoom,
          schedule_putQueue]
        simp only [Action.grantsTo] at h ⊢
        simpa using h
      | patientStart q =>
        rw [fire_patientStart, requestCall]
        rw [(grantFrom_frame cap _ _).2.1]
        rw [grCount_grantFrom, List.countP_append]
        simp only [Action.grantsTo] at h ⊢
        rw [List.count_append]
        by_cases hqp : q = p
        · subst hqp
          simp at h ⊢
          omega
        · simp [hqp, Ne.symm hqp] at h ⊢
          omega
      | granted q arr =>
        rw [fire_granted, grCount_schedule, schedule_waitingRoom,
          schedule_putQueue]
        simp only [Action.grantsTo] at h ⊢
        by_cases hqp : q = p
        · subst hqp
          simp at h ⊢
          omega
        · have hne : p ≠ q := Ne.symm hqp
          simp [hqp, List.count_erase_of_ne hne] at h ⊢
          omega
      | serviceDone q arr =>
        rw [fire_serviceDone, waitingRoom_set_waitData, putQueue_set_waitData,
          queue_set_waitData]
        rw [schedule_waitingRoom, schedule_waitingRoom, schedule_putQueue,
          schedule_putQueue, grCount_schedule, grCount_schedule]
        simp only [Action.grantsTo] at h ⊢
        simpa using h
      | releaseEvt =>
        rw [fire_releaseEvt]
        rw [(grantFrom_frame cap _ _).2.1]
        rw [grCount_grantFrom]
        simp only [Action.grantsTo] at h ⊢
        simpa using h
      | stop =>
        rw [fire_stop]
        simp only [Action.grantsTo] at h ⊢
        simpa using h

theorem roomBal_setup (numPersons : ℕ) (horizon : ℚ) (p : ℕ) :
    roomBal p (setup numPersons horizon) := by
  unfold roomBal
  rw [setup_countP numPersons horizon _ (fun a => Action.grantsTo p a)
    (fun d pr n a => rfl)]
  rw [(setup_frame numPersons horizon).2.2.1,
    (setup_frame numPersons horizon).2.2.2.1]
  rw [countP_ext _ (fun a => rfl :
    ∀ a : ℕ, Action.grantsTo p (.initVisit a) = (fun _ : ℕ => false) a)]
  simp [Action.grantsTo]

theorem roomBal_runFor (cap numPersons : ℕ) (horizon : ℚ) (ia sv : ℕ → ℚ)
    (n p : ℕ) :
    roomBal p (runFor cap numPersons horizon ia sv n) := by
  induction n with
  | zero => exact roomBal_setup numPersons horizon p
  | succ n ih => exact roomBal_step cap ia sv p _ ih

/-! ## Sample-count balance

At every machine state the number of queue-length (arrival) samples equals
the number of wait-time (completion) samples plus the number of service
processes still in flight. -/

def sampleBal (s : SimState) : Prop :=
  s.queueData.length = s.waitData.length + inFlight s

theorem igCount_schedule (s : SimState) (d : ℚ) (pr : ℕ) (a : Action) :
    (schedule s d pr a).queue.countP (fun e => e.act.isGranted)
      = s.queue.countP (fun e => e.act.isGranted)
        + (if a.isGranted then 1 else 0) := by
  rw [schedule_countP]

theorem sdCount_schedule (s : SimState) (d : ℚ) (pr : ℕ) (a : Action) :
    (schedule s d pr a).queue.countP (fun e => e.act.isServiceDone)
      = s.queue.countP (fun e => e.act.isServiceDone)
        + (if a.isServiceDone then 1 else 0) := by
  rw [schedule_countP]

theorem igCount_grantFrom (cap : ℕ) (pq : List (ℕ × ℚ)) (s : SimState) :
    (grantFrom cap pq s).queue.countP (fun e => e.act.isGranted)
        + (grantFrom cap pq s).putQueue.length
      = s.queue.countP (fun e => e.act.isGranted) + pq.length := by
  have h := grantFrom_countP cap (fun e => e.act.isGranted)
    (fun _ => true) (fun d pr n q arr => rfl) pq s
  simpa using h

theorem sdCount_grantFrom (cap : ℕ) (pq : List (ℕ × ℚ)) (s : SimState) :
    (grantFrom cap pq s).queue.countP (fun e => e.act.isServiceDone)
      = s.queue.countP (fun e => e.act.isServiceDone) := by
  have h := grantFrom_countP cap (fun e => e.act.isServiceDone)
    (fun _ => false) (fun d pr n q arr => rfl) pq s
  simpa using h

theorem sampleBal_step (cap : ℕ) (ia sv : ℕ → ℚ) (s : SimState)
    (h : sampleBal s) : sampleBal (step cap ia sv s) := by
  by_cases hs : s.stopped = true
  · rwa [step_of_stopped cap ia sv hs]
  · rcases hq : s.queue with _ | ⟨e, rest⟩
    · rwa [step_of_nil cap ia sv hq]
    · obtain ⟨d, pr, n, a⟩ := e
      rw [step_eq cap ia sv hs hq]
      unfold sampleBal inFlight at h ⊢
      rw [hq, List.countP_cons, List.countP_cons] at h
      cases a with
      | initVisit q =>
        rw [fire_initVisit, igCount_schedule, sdCount_schedule,
          schedule_putQueue, schedule_queueData, schedule_waitData]
        simp at h ⊢
        omega
      | arrive q =>
        rw [fire_arrive, igCount_schedule, sdCount_schedule,
          schedule_putQueue, schedule_queueData, schedule_waitData]
        simp at h ⊢
        omega
      | patientStart q =>
        rw [fire_patientStart, requestCall]
        rw [(grantFrom_frame cap _ _).2.2.1, (grantFrom_frame cap _ _).2.2.2.1]
        have hig := igCount_grantFrom cap
          (s.putQueue ++ [(q, d)])
          { s with
            now := d
            queue := rest
            waitingRoom := s.waitingRoom ++ [q]
            queueData := s.queueData
              ++ [((s.waitingRoom ++ [q]).length, d / 3600 / 24)] }
        have hsd := sdCount_grantFrom cap
          (s.putQueue ++ [(q, d)])
          { s with
            now := d
            queue := rest
            waitingRoom := s.waitingRoom ++ [q]
            queueData := s.queueData
              ++ [((s.waitingRoom ++ [q]).length, d / 3600 / 24)] }
        simp at h hig hsd ⊢
        omega
      | granted q arr =>
        rw [fire_granted, igCount_schedule, sdCount_schedule,
          schedule_putQueue, schedule_queueData, schedule_waitData]
        simp at h ⊢
        omega
      | serviceDone q arr =>
        rw [fire_serviceDone, queue_set_waitData, putQueue_set_waitData,
          queueData_set_waitData, waitData_set_waitData]
        rw [schedule_queueData, schedule_queueData, schedule_putQueue,
          schedule_putQueue, igCount_schedule, igCount_schedule,
          sdCount_schedule, sdCount_schedule]
        simp at h ⊢
        omega
      | releaseEvt =>
        rw [fire_releaseEvt]
        rw [(grantFrom_frame cap _ _).2.2.1, (grantFrom_frame cap _ _).2.2.2.1]
        have hig := igCount_grantFrom cap s.putQueue
          { s with
            now := d
            queue := rest }
        have hsd := sdCount_grantFrom cap s.putQueue
          { s with
            now := d
            queue := rest }
        simp at h hig hsd ⊢
        omega
      | stop =>
        rw [fire_stop]
        simp at h ⊢
        omega

theorem sampleBal_setup (numPersons : ℕ) (horizon : ℚ) :
    sampleBal (setup numPersons horizon) := by
  unfold sampleBal inFlight
  rw [setup_countP numPersons horizon _ (fun a => a.isGranted)
    (fun d pr n a => rfl)]
  rw [setup_countP numPersons horizon _ (fun a => a.isServiceDone)
    (fun d pr n a => rfl)]
  rw [(setup_frame numPersons horizon).2.2.1,
    (setup_frame numPersons horizon).2.2.2.2.1,
    (setup_frame numPersons horizon).2.2.2.2.2.1]
  rw [countP_ext _ (fun a => rfl :
    ∀ a : ℕ, (Action.initVisit a).isGranted = (fun _ : ℕ => false) a)]
  rw [countP_ext _ (fun a => rfl :
    ∀ a : ℕ, (Action.initVisit a).isServiceDone = (fun _ : ℕ => false) a)]
  simp [Action.isGranted, Action.isServiceDone]

theorem sampleBal_runFor (cap numPersons : ℕ) (horizon : ℚ) (ia sv : ℕ → ℚ)
    (n : ℕ) :
    sampleBal (runFor cap numPersons horizon ia sv n) := by
  induction n with
  | zero => exact sampleBal_setup numPersons horizon
  | succ n ih => exact sampleBal_step cap ia sv _ ih

/-! ## Capacity bound on busy slots -/

theorem users_le_step (cap : ℕ) (ia sv : ℕ → ℚ) (s : SimState)
    (h : s.users ≤ cap) : (step cap ia sv s).users ≤ cap := by
  by_cases hs : s.stopped = true
  · rwa [step_of_stopped cap ia sv hs]
  · rcases hq : s.queue with _ | ⟨e, rest⟩
    · rwa [step_of_nil cap ia sv hq]
    · obtain ⟨d, pr, n, a⟩ := e
      rw [step_eq cap ia sv hs hq]
      cases a with
      | initVisit q => simpa [fire_initVisit, schedule_users] using h
      | arrive q => simpa [fire_arrive, schedule_users] using h
      | patientStart q =>
        rw [fire_patientStart, requestCall]
        exact grantFrom_users_le cap _ _ h
      | granted q arr => simpa [fire_granted, schedule_users] using h
      | serviceDone q arr =>
        rw [fire_serviceDone, users_set_waitData, schedule_users, schedule_users]
        simp only
        omega
      | releaseEvt =>
        rw [fire_releaseEvt]
        exact grantFrom_users_le cap _ _ h
      | stop => simpa [fire_stop] using h

theorem users_le_runFor (cap numPersons : ℕ) (horizon : ℚ) (ia sv : ℕ → ℚ)
    (n : ℕ) :
    (runFor cap numPersons horizon ia sv n).users ≤ cap := by
  induction n with
  | zero =>
    rw [show (runFor cap numPersons horizon ia sv 0).users = 0 from
      (setup_frame numPersons horizon).2.1]
    exact Nat.zero_le cap
  | succ n ih => exact users_le_step cap ia sv _ ih

/-! ## The event heap stays sorted by `(due, priority, eid)` -/

theorem sorted_step (cap : ℕ) (ia sv : ℕ → ℚ) (s : SimState)
    (h : s.queue.Sorted keyLe) : (step cap ia sv s).queue.Sorted keyLe := by
  by_cases hs : s.stopped = true
  · rwa [step_of_stopped cap ia sv hs]
  · rcases hq : s.queue with _ | ⟨e, rest⟩
    · rwa [step_of_nil cap ia sv hq]
    · obtain ⟨d, pr, n, a⟩ := e
      rw [step_eq cap ia sv hs hq]
      rw [hq] at h
      have hrest : rest.Sorted keyLe := h.of_cons
      cases a with
      | initVisit q => exact schedule_sorted _ _ _ _ hrest
      | arrive q => exact schedule_sorted _ _ _ _ hrest
      | patientStart q =>
        rw [fire_patientStart, requestCall]
        exact grantFrom_sorted cap _ _ hrest
      | granted q arr => exact schedule_sorted _ _ _ _ hrest
      | serviceDone q arr =>
        rw [fire_serviceDone, queue_set_waitData]
        exact schedule_sorted _ _ _ _ (schedule_sorted _ _ _ _ hrest)
      | releaseEvt =>
        rw [fire_releaseEvt]
        exact grantFrom_sorted cap _ _ hrest
      | stop => exact h.of_cons
  
theorem sorted_runFor (cap numPersons : ℕ) (horizon : ℚ) (ia sv : ℕ → ℚ)
    (n : ℕ) :
    (runFor cap numPersons horizon ia sv n).queue.Sorted keyLe := by
  induction n with
  | zero => exact setup_sorted numPersons horizon
  | succ n ih => exact sorted_step cap ia sv _ ih

/-! ## Time bounds

The clock never runs ahead of a pending event; a grant event carries an
arrival time no later than its due time; a service-completion event carries
an arrival time strictly before its due time (the service draw is positive);
pending requests arrived no later than now; and every recorded wait is
strictly positive. -/

def actOK (e : Event) : Prop :=
  match e.act with
  | .granted _ arr => arr ≤ e.due
  | .serviceDone _ arr => arr < e.due
  | _ => True

def TimeInv (s : SimState) : Prop :=
  s.queue.Sorted keyLe ∧
  (∀ e ∈ s.queue, s.now ≤ e.due ∧ actOK e) ∧
  (∀ pa ∈ s.putQueue, pa.2 ≤ s.now) ∧
  (∀ w ∈ s.waitData, 0 < w.2.2)

theorem TimeInv_schedule (s : SimState) (d : ℚ) (pr : ℕ) (a : Action)
    (hd : 0 ≤ d) (h : TimeInv s)
    (ha : actOK ⟨s.now + d, pr, s.nextEid, a⟩) :
    TimeInv (schedule s d pr a) := by
  obtain ⟨hsort, hmem, hput, hwait⟩ := h
  refine ⟨schedule_sorted _ _ _ _ hsort, ?_, ?_, ?_⟩
  · intro e he
    rcases (schedule_mem _ _ _ _ e).mp he with he | he
    · subst he
      refine ⟨?_, ha⟩
      show s.now ≤ s.now + d
      linarith
    · have := hmem e he
      exact ⟨by simpa [schedule_now] using this.1, this.2⟩
  · intro pa hpa
    rw [schedule_putQueue] at hpa
    simpa [schedule_now] using hput pa hpa
  · intro w hw
    rw [schedule_waitData] at hw
    exact hwait w hw

theorem TimeInv_grantFrom (cap : ℕ) (pq : List (ℕ × ℚ)) (s : SimState)
    (h : TimeInv s) (hpq : ∀ pa ∈ pq, pa.2 ≤ s.now) :
    TimeInv (grantFrom cap pq s) := by
  obtain ⟨hsort, hmem, hput, hwait⟩ := h
  refine ⟨grantFrom_sorted cap _ _ hsort, ?_, ?_, ?_⟩
  · intro e he
    rcases grantFrom_queue_src cap pq s e he with he | ⟨hd, hp, pa, hpa, hact⟩
    · have := hmem e he
      rw [(grantFrom_frame cap pq s).1]
      exact this
    · rw [(grantFrom_frame cap pq s).1, hd]
      refine ⟨le_refl _, ?_⟩
      unfold actOK
      rw [hact]
      simp only
      rw [hd]
      exact hpq pa hpa
  · intro pa hpa
    rw [grantFrom_putQueue] at hpa
    rw [(grantFrom_frame cap pq s).1]
    exact hpq pa (List.drop_subset _ _ hpa)
  · intro w hw
    rw [(grantFrom_frame cap pq s).2.2.2.1] at hw
    exact hwait w hw

theorem TimeInv_step (cap : ℕ) (ia sv : ℕ → ℚ)
    (hia : ∀ i, 0 ≤ ia i) (hsv : ∀ i, 0 < sv i) (s : SimState)
    (h : TimeInv s) : TimeInv (step cap ia sv s) := by
  by_cases hs : s.stopped = true
  · rwa [step_of_stopped cap ia sv hs]
  · rcases hq : s.queue with _ | ⟨e, rest⟩
    · rwa [step_of_nil cap ia sv hq]
    · rw [step_eq cap ia sv hs hq]
      obtain ⟨hsort, hmem, hput, hwait⟩ := h
      rw [hq] at hsort hmem
      have hed : s.now ≤ e.due := (hmem e (List.mem_cons_self e rest)).1
      have heOK : actOK e := (hmem e (List.mem_cons_self e rest)).2
      have hrest : ∀ x ∈ rest, e.due ≤ x.due := fun x hx =>
        keyLe_due ((List.sorted_cons.mp hsort).1 x hx)
      have hstInv : TimeInv { s with now := e.due, queue := rest } := by
        refine ⟨(List.sorted_cons.mp hsort).2, ?_, ?_, ?_⟩
        · intro x hx
          exact ⟨hrest x hx, (hmem x (List.mem_cons_of_mem e hx)).2⟩
        · intro pa hpa
          exact le_trans (hput pa hpa) hed
        · exact hwait
      obtain ⟨d, pr, n, a⟩ := e
      unfold actOK at heOK
      cases a with
      | initVisit q =>
        rw [fire_initVisit]
        exact TimeInv_schedule _ _ _ _ (hia _) hstInv trivial
      | arrive q =>
        rw [fire_arrive]
        exact TimeInv_schedule _ _ _ _ (le_refl 0) hstInv trivial
      | patientStart q =>
        rw [fire_patientStart, requestCall]
        apply TimeInv_grantFrom
        · exact hstInv
        · intro pa hpa
          rcases List.mem_append.mp hpa with hpa | hpa
          · exact le_trans (hput pa hpa) hed
          · simp at hpa
            subst hpa
            exact le_refl _
      | granted q arr =>
        rw [fire_granted]
        apply TimeInv_schedule _ _ _ _ (le_of_lt (hsv _)) hstInv
        unfold actOK
        simp only
        calc arr ≤ d := heOK
          _ < d + sv ({ s with now := d, queue := rest } : SimState).svIdx :=
                lt_add_of_pos_right _ (hsv _)
      | serviceDone q arr =>
        rw [fire_serviceDone]
        have hst1 : TimeInv
            (schedule { s with now := d, queue := rest, users := s.users - 1 }
              0 1 .releaseEvt) :=
          TimeInv_schedule _ _ _ _ (le_refl 0) hstInv trivial
        have hs2 : TimeInv (schedule
            (schedule { s with now := d, queue := rest, users := s.users - 1 }
              0 1 .releaseEvt) 0 0 (.initVisit q)) :=
          TimeInv_schedule _ _ _ _ (le_refl 0) hst1 trivial
        obtain ⟨h1, h2, h3, h4⟩ := hs2
        refine ⟨h1, h2, h3, ?_⟩
        intro w hw
        rw [waitData_set_waitData] at hw
        rcases List.mem_append.mp hw with hw | hw
        · exact hwait w hw
        · simp at hw
          rw [hw]
          simp only
          have : (0 : ℚ) < d - arr := by linarith [heOK]
          positivity
      | releaseEvt =>
        rw [fire_releaseEvt]
        apply TimeInv_grantFrom _ _ _ hstInv
        intro pa hpa
        exact le_trans (hput pa hpa) hed
      | stop =>
        rw [fire_stop]
        exact hstInv

theorem foldl_initVisit_queue_mem (l : List ℕ) :
    ∀ (s : SimState) (x : Event),
      x ∈ (l.foldl (fun s i => schedule s 0 0 (.initVisit i)) s).queue →
      x ∈ s.queue ∨ (x.due = s.now ∧ ∃ i, x.act = .initVisit i) := by
  induction l with
  | nil => intro s x hx; exact Or.inl hx
  | cons i l ih =>
    intro s x hx
    rcases ih (schedule s 0 0 (.initVisit i)) x hx with hx | ⟨hd, j, hact⟩
    · rcases (schedule_mem _ _ _ _ x).mp hx with hx | hx
      · subst hx
        exact Or.inr ⟨by simp, i, rfl⟩
      · exact Or.inl hx
    · exact Or.inr ⟨by simpa [schedule_now] using hd, j, hact⟩

theorem TimeInv_setup (numPersons : ℕ) (horizon : ℚ) (hT : 0 ≤ horizon) :
    TimeInv (setup numPersons horizon) := by
  refine ⟨setup_sorted numPersons horizon, ?_, ?_, ?_⟩
  · intro e he
    unfold setup at he
    rcases (schedule_mem _ _ _ _ e).mp he with he | he
    · subst he
      have hnow : ((List.range numPersons).foldl
          (fun s i => schedule s 0 0 (.initVisit i)) emptyState).now = 0 :=
        (foldl_initVisit_frame _ _).1
      refine ⟨?_, trivial⟩
      rw [(setup_frame numPersons horizon).1]
      show (0 : ℚ) ≤ _ + horizon
      rw [hnow]
      linarith
    · rcases foldl_initVisit_queue_mem _ _ e he with he | ⟨hd, i, hact⟩
      · simp [emptyState] at he
      · constructor
        · rw [(setup_frame numPersons horizon).1, hd]
          show _ ≤ (emptyState : SimState).now
          simp [emptyState]
        · unfold actOK
          rw [hact]
          trivial
  · intro pa hpa
    rw [(setup_frame numPersons horizon).2.2.1] at hpa
    simp at hpa
  · intro w hw
    rw [(setup_frame numPersons horizon).2.2.2.2.2.1] at hw
    simp at hw

theorem TimeInv_runFor (cap numPersons : ℕ) (horizon : ℚ) (ia sv : ℕ → ℚ)
    (hia : ∀ i, 0 ≤ ia i) (hsv : ∀ i, 0 < sv i) (hT : 0 ≤ horizon) (n : ℕ) :
    TimeInv (runFor cap numPersons horizon ia sv n) := by
  induction n with
  | zero => exact TimeInv_setup numPersons horizon hT
  | succ n ih => exact TimeInv_step cap ia sv hia hsv _ ih


/-! ## Concrete run evaluations

Small scenarios evaluated to explicit states, used as concrete inputs below.
Scenario A: one person, capacity 1, inter-arrival draw 1, service draw 100,
horizon 10 (the visit outlives the horizon).  Scenario B: one person,
capacity 1, inter-arrival draw 0, service draw 1, horizon 10 (one complete
visit).  Scenario C: two persons, capacity 2, inter-arrival draws 0 and 5,
service draw 5, horizon 100 (a discharge coincides with an arrival). -/

theorem runFor_frozen (cap numPersons : ℕ) (horizon : ℚ) (ia sv : ℕ → ℚ)
    (n : ℕ) (h : (runFor cap numPersons horizon ia sv n).stopped = true) :
    ∀ k, runFor cap numPersons horizon ia sv (n + k)
      = runFor cap numPersons horizon ia sv n
  | 0 => rfl
  | k + 1 => by
    rw [show n + (k + 1) = (n + k) + 1 from rfl, runFor,
      runFor_frozen cap numPersons horizon ia sv n h k,
      step_of_stopped cap ia sv h]

theorem runA2_eval :
    runFor 1 1 10 (fun _ => 1) (fun _ => 100) 2
      = ⟨1, [⟨1, 0, 3, .patientStart 0⟩, ⟨10, 0, 1, .stop⟩], 4, 0, [], [],
          [], [], 1, 0, false⟩ := by
  norm_num [runFor, setup, emptyState, step, fire, schedule, requestCall,
    grantFrom, List.orderedInsert, keyLe, List.range_succ]

theorem runA5_eval :
    runFor 1 1 10 (fun _ => 1) (fun _ => 100) 5
      = ⟨10, [⟨101, 1, 5, .serviceDone 0 1⟩], 6, 1, [], [],
          [(1, 1/86400)], [], 1, 1, true⟩ := by
  norm_num [runFor, setup, emptyState, step, fire, schedule, requestCall,
    grantFrom, List.orderedInsert, keyLe, List.range_succ]

theorem runB3_eval :
    runFor 1 1 10 (fun _ => 0) (fun _ => 1) 3
      = ⟨0, [⟨0, 1, 4, .granted 0 0⟩, ⟨10, 0, 1, .stop⟩], 5, 1, [], [0],
          [(1, 0)], [], 1, 0, false⟩ := by
  norm_num [runFor, setup, emptyState, step, fire, schedule, requestCall,
    grantFrom, List.orderedInsert, keyLe, List.range_succ]

theorem runB5_eval :
    runFor 1 1 10 (fun _ => 0) (fun _ => 1) 5
      = ⟨1, [⟨1, 0, 7, .initVisit 0⟩, ⟨1, 1, 6, .releaseEvt⟩, ⟨10, 0, 1, .stop⟩],
          8, 0, [], [], [(1, 0)], [(0, 0, 1/3600)], 1, 1, false⟩ := by
  norm_num [runFor, setup, emptyState, step, fire, schedule, requestCall,
    grantFrom, List.orderedInsert, keyLe, List.range_succ]

theorem runC6_eval :
    runFor 2 2 100 (fun i => if i = 0 then 0 else 5) (fun _ => 5) 6
      = ⟨5, [⟨5, 0, 8, .patientStart 1⟩, ⟨5, 1, 7, .serviceDone 0 0⟩,
            ⟨100, 0, 2, .stop⟩], 9, 1, [], [], [(1, 0)], [], 2, 1, false⟩ := by
  norm_num [runFor, setup, emptyState, step, fire, schedule, requestCall,
    grantFrom, List.orderedInsert, keyLe, List.range_succ]

/-! ## Claims -/

/-- C1: at every instant of a simulation run the department resource
satisfies `in_use ≤ capacity`; and a `request()` call that grants the new
request during the call itself — the caller is not left pending in the wait
queue, i.e. it is granted without suspending in simpy's sense that the
request event is triggered immediately — does so only when `in_use <
capacity` held at the moment of the request. -/
theorem C1_capacity_invariant (cap numPersons : ℕ) (horizon : ℚ)
    (ia sv : ℕ → ℚ) (n : ℕ) :
    (runFor cap numPersons horizon ia sv n).users ≤ cap ∧
    (∀ (s : SimState) (p : ℕ) (arr : ℚ),
      (requestCall cap p arr s).putQueue = [] → s.users < cap) := by
  constructor
  · exact users_le_runFor cap numPersons horizon ia sv n
  · intro s p arr h
    exact grantFrom_putQueue_nil cap _ s h (by simp)

/-- Witness for C1 at a concrete input: the run bound holds after five loop
iterations of a two-person run, and a concrete immediately-granted request
did find a free slot. -/
theorem C1_capacity_invariant_witness :
    (runFor 2 2 100 (fun _ => 0) (fun _ => 1) 5).users ≤ 2 ∧
    emptyState.users < 1 := by
  refine ⟨(C1_capacity_invariant 2 2 100 (fun _ => 0) (fun _ => 1) 5).1, ?_⟩
  exact (C1_capacity_invariant 1 0 0 (fun _ => 0) (fun _ => 0) 0).2
    emptyState 0 0 (by decide)

/-- C2: strict FIFO grant order.  A `_trigger_put` walk (the only way any
request is ever granted, both inside `request()` and when a Release event
fires) grants exactly a head segment of the FIFO wait queue: the remainder
is the corresponding suffix, in order, and the i-th queued waiter that is
granted gets the grant event `(now, NORMAL, nextEid + i)` — consecutive
sequence numbers at one time, so earlier-queued waiters both are granted
first and resume first.  A later-arrived pending request is therefore never
granted before an earlier-arrived one. -/
theorem C2_fifo_grant_order (cap : ℕ) (pq : List (ℕ × ℚ)) (s : SimState) :
    (grantFrom cap pq s).putQueue = pq.drop (grantCount cap pq s.users) ∧
    (grantFrom cap pq s).nextEid = s.nextEid + grantCount cap pq s.users ∧
    (∀ (i : ℕ) (pa : ℕ × ℚ), i < grantCount cap pq s.users →
      pq.get? i = some pa →
      (⟨s.now, 1, s.nextEid + i, .granted pa.1 pa.2⟩ : Event)
        ∈ (grantFrom cap pq s).queue) :=
  ⟨grantFrom_putQueue cap pq s, grantFrom_nextEid cap pq s,
    fun i pa hi hg => grantFrom_mem_new cap pq s i pa hi hg⟩

/-- Witness for C2 at a concrete input: with capacity 2 and two pending
requests both are granted, in order, with sequence numbers 0 and 1. -/
theorem C2_fifo_grant_order_witness :
    (grantFrom 2 [(5, 0), (7, 0)] emptyState).putQueue = [] ∧
    (⟨0, 1, 0, .granted 5 0⟩ : Event)
      ∈ (grantFrom 2 [(5, 0), (7, 0)] emptyState).queue ∧
    (⟨0, 1, 1, .granted 7 0⟩ : Event)
      ∈ (grantFrom 2 [(5, 0), (7, 0)] emptyState).queue := by
  have h := C2_fifo_grant_order 2 [(5, 0), (7, 0)] emptyState
  refine ⟨?_, ?_, ?_⟩
  · rw [h.1]
    decide
  · exact h.2.2 0 (5, 0) (by decide) (by decide)
  · exact h.2.2 1 (7, 0) (by decide) (by decide)

/-- C3: a Completion sample is appended exactly as
`(patient, arrival/3600/24, (departure - arrival)/3600)` where the departure
is the clock value at the moment the service-completion event fires — so
`wait_duration` is departure minus arrival; and under the actual supports of
the random draws (exponential inter-arrivals ≥ 0, triangular service times
from `(300, 1200, 3600)` strictly positive) every recorded wait is strictly
positive, hence nonnegative, and in particular strictly positive whenever
the resource was full at arrival. -/
theorem C3_wait_duration (cap numPersons : ℕ) (horizon : ℚ) (ia sv : ℕ → ℚ)
    (hia : ∀ i, 0 ≤ ia i) (hsv : ∀ i, 0 < sv i) (hT : 0 ≤ horizon) (n : ℕ) :
    (∀ w ∈ (runFor cap numPersons horizon ia sv n).waitData,
      0 ≤ w.2.2 ∧ 0 < w.2.2) ∧
    (∀ (s : SimState) (d : ℚ) (pr m q : ℕ) (arr : ℚ),
      (fire cap ia sv ⟨d, pr, m, .serviceDone q arr⟩ s).waitData
        = s.waitData ++ [(q, arr / 3600 / 24, (s.now - arr) / 3600)]) := by
  constructor
  · intro w hw
    have h := (TimeInv_runFor cap numPersons horizon ia sv hia hsv hT n).2.2.2 w hw
    exact ⟨le_of_lt h, h⟩
  · intro s d pr m q arr
    rfl

/-- Witness for C3 at a concrete input: a one-person run with inter-arrival
0 and service time 1 records the single wait 1/3600 h > 0, and a concrete
completion append has exactly the departure-minus-arrival form. -/
theorem C3_wait_duration_witness :
    ((0 : ℚ) < (1 : ℚ) / 3600) ∧
    (fire 1 (fun _ => 0) (fun _ => 1) ⟨0, 1, 0, .serviceDone 0 0⟩
        emptyState).waitData = [(0, 0, 0)] := by
  have h := C3_wait_duration 1 1 10 (fun _ => 0) (fun _ => 1)
    (fun i => le_refl 0) (fun i => by norm_num) (by norm_num) 5
  constructor
  · exact (h.1 (0, 0, 1/3600) (by simp [runB5_eval])).2
  · have h2 := h.2 emptyState 0 1 0 0 0
    rw [h2]
    norm_num [emptyState]

/-- C4 counterexample: run one person with inter-arrival draw 1, service
draw 100, horizon 10.  Two loop iterations in, the arrival process has slept
and just spawned its service process; were the claim true it would now have
drawn a fresh inter-arrival delay and be sleeping on it, but the only
pending events are the service-process initialization and the run horizon —
no re-armed arrival timeout exists.  Over the whole run (the state freezes
once the horizon event fires at iteration 5) the entity, whose visit is in
service until past the horizon, records exactly one arrival and never
re-arrives during the visit. -/
theorem C4_counterexample :
    ((runFor 1 1 10 (fun _ => 1) (fun _ => 100) 2).queue.map Event.act
        = [.patientStart 0, .stop]) ∧
    (runFor 1 1 10 (fun _ => 1) (fun _ => 100) 20).queueData.length = 1 ∧
    (runFor 1 1 10 (fun _ => 1) (fun _ => 100) 20).waitData = [] := by
  have h20 : runFor 1 1 10 (fun _ => 1) (fun _ => 100) 20
      = runFor 1 1 10 (fun _ => 1) (fun _ => 100) 5 :=
    runFor_frozen 1 1 10 (fun _ => 1) (fun _ => 100) 5 (by rw [runA5_eval]) 15
  refine ⟨?_, ?_, ?_⟩
  · rw [runA2_eval]
    rfl
  · rw [h20, runA5_eval]
    rfl
  · rw [h20, runA5_eval]

/-- C4 amended: after spawning the Service Process the Arrival Process
terminates without drawing a new inter-arrival delay — its final resumption
schedules exactly the service-process initialization event; the entity's
next arrival cycle begins only at discharge, when the Service Process's
final resumption (which releases the slot and appends the completion sample)
schedules a fresh arrival-process initialization for the same entity.  An
entity therefore never has a new arrival pending while a visit is waiting
or in service. -/
theorem C4_amended (cap : ℕ) (ia sv : ℕ → ℚ) (d : ℚ) (pr n q : ℕ) (arr : ℚ)
    (s : SimState) :
    fire cap ia sv ⟨d, pr, n, .arrive q⟩ s = schedule s 0 0 (.patientStart q) ∧
    fire cap ia sv ⟨d, pr, n, .serviceDone q arr⟩ s
      = { schedule (schedule { s with users := s.users - 1 } 0 1 .releaseEvt)
            0 0 (.initVisit q) with
          waitData := s.waitData
            ++ [(q, arr / 3600 / 24, (s.now - arr) / 3600)] } :=
  ⟨rfl, rfl⟩

/-- C5: the Service Process's final resumption runs synchronously to
termination; the completion-sample append is its last effect.  The resulting
state differs from the pre-resumption state only in: the released slot
(`users` decremented), two scheduled events — the resource Release event and
the respawned arrival process, both created before the sample append — and
the appended completion sample.  Waiting room, queue samples, pending
requests and the clock are untouched, and no continuation of the service
process itself remains in the queue, so the process never acts again. -/
theorem C5_service_terminates (cap : ℕ) (ia sv : ℕ → ℚ) (d : ℚ) (pr n q : ℕ)
    (arr : ℚ) (s : SimState) :
    (fire cap ia sv ⟨d, pr, n, .serviceDone q arr⟩ s).waitData
        = s.waitData ++ [(q, arr / 3600 / 24, (s.now - arr) / 3600)] ∧
    (fire cap ia sv ⟨d, pr, n, .serviceDone q arr⟩ s).waitingRoom
        = s.waitingRoom ∧
    (fire cap ia sv ⟨d, pr, n, .serviceDone q arr⟩ s).queueData
        = s.queueData ∧
    (fire cap ia sv ⟨d, pr, n, .serviceDone q arr⟩ s).putQueue = s.putQueue ∧
    (fire cap ia sv ⟨d, pr, n, .serviceDone q arr⟩ s).now = s.now ∧
    (fire cap ia sv ⟨d, pr, n, .serviceDone q arr⟩ s).users = s.users - 1 ∧
    (∀ e ∈ (fire cap ia sv ⟨d, pr, n, .serviceDone q arr⟩ s).queue,
      e ∈ s.queue ∨ e.act = .releaseEvt ∨ e.act = .initVisit q) := by
  refine ⟨rfl, rfl, rfl, rfl, rfl, rfl, ?_⟩
  intro e he
  rw [fire_serviceDone, queue_set_waitData] at he
  rcases (schedule_mem _ _ _ _ e).mp he with he | he
  · subst he
    right
    right
    rfl
  · rcases (schedule_mem _ _ _ _ e).mp he with he | he
    · subst he
      right
      left
      rfl
    · left
      exact he

/-- Witness for C5 at a concrete input: the Release event scheduled by a
concrete completion is covered by the frame property. -/
theorem C5_service_terminates_witness :
    ((⟨0, 1, 0, Action.releaseEvt⟩ : Event)
        ∈ (fire 1 (fun _ => 0) (fun _ => 0) ⟨0, 1, 5, .serviceDone 0 0⟩
            emptyState).queue) ∧
    ((⟨0, 1, 0, Action.releaseEvt⟩ : Event) ∈ emptyState.queue ∨
      Action.releaseEvt = Action.releaseEvt ∨
      Action.releaseEvt = Action.initVisit 0) := by
  have hmem : (⟨0, 1, 0, Action.releaseEvt⟩ : Event)
      ∈ (fire 1 (fun _ => 0) (fun _ => 0) ⟨0, 1, 5, .serviceDone 0 0⟩
          emptyState).queue := by
    norm_num [fire, schedule, emptyState, List.orderedInsert, keyLe]
  exact ⟨hmem, (C5_service_terminates 1 (fun _ => 0) (fun _ => 0) 0 1 5 0 0
    emptyState).2.2.2.2.2.2 ⟨0, 1, 0, .releaseEvt⟩ hmem⟩

/-- C6 counterexample: one person, capacity 1, inter-arrival 0, service 1.
Three loop iterations in, the entity's request has been granted — it
occupies the only slot (`users = 1`), its grant event is scheduled, and no
request is pending — yet the entity is still in the waiting room, because
`waiting_room.remove` runs only when the process resumes at the grant event.
So WaitingRoom membership is not exactly "arrived and not yet granted" at
every instant. -/
theorem C6_counterexample :
    (runFor 1 1 10 (fun _ => 0) (fun _ => 1) 3).waitingRoom = [0] ∧
    ((⟨0, 1, 4, .granted 0 0⟩ : Event)
        ∈ (runFor 1 1 10 (fun _ => 0) (fun _ => 1) 3).queue) ∧
    (runFor 1 1 10 (fun _ => 0) (fun _ => 1) 3).users = 1 ∧
    (runFor 1 1 10 (fun _ => 0) (fun _ => 1) 3).putQueue = [] := by
  refine ⟨?_, ?_, ?_, ?_⟩ <;> simp [runB3_eval]

/-- C6 amended: an arriving entity is appended to the waiting room before
the arrival sample records the incremented size (the sample stores the
length after the append), but it leaves the room when its process resumes at
the grant event — the same simulated time as the grant, though possibly
after other same-time events.  Membership therefore equals "arrived and not
yet resumed past the grant": at every reachable state the multiplicity of
`p` in the waiting room is the number of scheduled grant events for `p` plus
the number of pending requests of `p`. -/
theorem C6_amended (cap numPersons : ℕ) (horizon : ℚ) (ia sv : ℕ → ℚ)
    (n p q : ℕ) (s : SimState) (d : ℚ) (pr m : ℕ) :
    roomBal p (runFor cap numPersons horizon ia sv n) ∧
    (fire cap ia sv ⟨d, pr, m, .patientStart q⟩ s).waitingRoom
        = s.waitingRoom ++ [q] ∧
    (fire cap ia sv ⟨d, pr, m, .patientStart q⟩ s).queueData
        = s.queueData ++ [((s.waitingRoom ++ [q]).length, s.now / 3600 / 24)] := by
  refine ⟨roomBal_runFor cap numPersons horizon ia sv n p, ?_, ?_⟩
  · rw [fire_patientStart, requestCall, (grantFrom_frame cap _ _).2.1]
  · rw [fire_patientStart, requestCall, (grantFrom_frame cap _ _).2.2.1]

/-- C7: at every point of a run the number of Completion samples is at most
the number of Arrival samples, and they are equal whenever no service
process is in flight (no pending request, no scheduled grant event, no
service in progress). -/
theorem C7_conservation (cap numPersons : ℕ) (horizon : ℚ) (ia sv : ℕ → ℚ)
    (n : ℕ) :
    (runFor cap numPersons horizon ia sv n).waitData.length
        ≤ (runFor cap numPersons horizon ia sv n).queueData.length ∧
    (inFlight (runFor cap numPersons horizon ia sv n) = 0 →
      (runFor cap numPersons horizon ia sv n).waitData.length
        = (runFor cap numPersons horizon ia sv n).queueData.length) := by
  have h := sampleBal_runFor cap numPersons horizon ia sv n
  unfold sampleBal at h
  constructor
  · omega
  · intro h0
    omega

/-- Witness for C7 at a concrete input: after the single visit of a
one-person run completes, nothing is in flight and both counts are 1. -/
theorem C7_conservation_witness :
    (runFor 1 1 10 (fun _ => 0) (fun _ => 1) 5).waitData.length
      = (runFor 1 1 10 (fun _ => 0) (fun _ => 1) 5).queueData.length :=
  (C7_conservation 1 1 10 (fun _ => 0) (fun _ => 1) 5).2
    (by simp [runB5_eval, inFlight])

/-- C8 counterexample: two persons, capacity 2, inter-arrival draws 0 and 5,
service draw 5.  At the sixth loop iteration the event fired next (the queue
head) is the service-process initialization with sequence number 8, while a
pending event with the same due time 5 but the earlier sequence number 7 sits
behind it: `env.process` initializations carry URGENT priority and overtake
same-time NORMAL events regardless of creation order, so events with equal
due time do not fire in sequence order. -/
theorem C8_counterexample :
    (runFor 2 2 100 (fun i => if i = 0 then 0 else 5) (fun _ => 5) 6).queue.head?
        = some ⟨5, 0, 8, .patientStart 1⟩ ∧
    ((⟨5, 1, 7, .serviceDone 0 0⟩ : Event)
        ∈ (runFor 2 2 100 (fun i => if i = 0 then 0 else 5) (fun _ => 5) 6).queue) := by
  refine ⟨?_, ?_⟩ <;> simp [runC6_eval]

/-- C8 amended: the pending-event queue is, at every reachable state, sorted
by `(due_time, priority, sequence)` and the loop always fires its head — so
among same-due-time events of equal priority, firing follows creation
(sequence) order, while URGENT initialization events precede same-time
NORMAL events; and a run is a deterministic function of the configuration
and the draw streams: identical draws give identical states, event
orderings, and samples. -/
theorem C8_amended (cap numPersons : ℕ) (horizon : ℚ) (ia sv ia2 sv2 : ℕ → ℚ)
    (n : ℕ) (hia : ∀ i, ia2 i = ia i) (hsv : ∀ i, sv2 i = sv i) :
    (runFor cap numPersons horizon ia sv n).queue.Sorted keyLe ∧
    runFor cap numPersons horizon ia2 sv2 n
      = runFor cap numPersons horizon ia sv n := by
  constructor
  · exact sorted_runFor cap numPersons horizon ia sv n
  · rw [funext hia, funext hsv]

/-- Witness for C8 amended at a concrete input. -/
theorem C8_amended_witness :
    (runFor 1 1 10 (fun _ => 1) (fun _ => 1) 4).queue.Sorted keyLe ∧
    runFor 1 1 10 (fun _ => 1) (fun _ => 1) 4
      = runFor 1 1 10 (fun _ => 1) (fun _ => 1) 4 :=
  C8_amended 1 1 10 (fun _ => 1) (fun _ => 1) (fun _ => 1) (fun _ => 1) 4
    (fun i => rfl) (fun i => rfl)

/-- C9: constructing the department with capacity ≤ 0 fails at construction
time — the `simpy.Resource` constructor invoked by
`AccidentEmergencyDepartment.__init__` raises ValueError for capacity ≤ 0 —
and the failure propagates before the run loop processes a single event. -/
theorem C9_capacity_validation (c : ℤ) (numPersons : ℕ) (horizon : ℚ)
    (ia sv : ℕ → ℚ) (fuel : ℕ) (hc : c ≤ 0) :
    mkDepartment c = .error "capacity must be > 0" ∧
    runProgram c numPersons horizon ia sv fuel
      = .error "capacity must be > 0" := by
  have h : mkDepartment c = .error "capacity must be > 0" := by
    unfold mkDepartment
    rw [if_pos hc]
  refine ⟨h, ?_⟩
  unfold runProgram
  rw [h]
  rfl

/-- Witness for C9 at the concrete input capacity = 0. -/
theorem C9_capacity_validation_witness :
    mkDepartment 0 = .error "capacity must be > 0" ∧
    runProgram 0 0 0 (fun _ => 0) (fun _ => 0) 3
      = .error "capacity must be > 0" :=
  C9_capacity_validation 0 0 0 (fun _ => 0) (fun _ => 0) 3 (by decide)

/-- C10: per-person sequential visits.  At every machine state each person
of the population owns exactly one live continuation or pending request
(`tokenCount = 1`; persons outside the population own none): the next
`visit_a_and_e` is spawned only at discharge inside `process_patient`, so at
most one visit is in flight per person at any time, and consequently each
person occurs at most once in the waiting room. -/
theorem C10_single_visit (cap numPersons : ℕ) (horizon : ℚ) (ia sv : ℕ → ℚ)
    (n p : ℕ) :
    tokenCount p (runFor cap numPersons horizon ia sv n)
        = (if p < numPersons then 1 else 0) ∧
    (runFor cap numPersons horizon ia sv n).waitingRoom.count p ≤ 1 := by
  have htok := tokenCount_runFor cap numPersons horizon ia sv n p
  refine ⟨htok, ?_⟩
  have hbal := roomBal_runFor cap numPersons horizon ia sv n p
  unfold roomBal at hbal
  unfold tokenCount at htok
  have hmono : (runFor cap numPersons horizon ia sv n).queue.countP
        (fun e => Action.grantsTo p e.act)
      ≤ (runFor cap numPersons horizon ia sv n).queue.countP
        (fun e => e.act.tokenOf == some p) := by
    apply List.countP_mono_left
    intro e he hgr
    cases hact : e.act <;> simp [hact] at hgr ⊢
    exact hgr
  by_cases hp : p < numPersons
  · rw [if_pos hp] at htok
    omega
  · rw [if_neg hp] at htok
    omega

end AESim
